import Mathlib

/-!
Verification development for the textmodes/vfs repository: a read-only
virtual filesystem with a Plan9-style bind/union namespace (`Scope`),
archive adapters (zipfs, tarfs, rarfs) built on a sorted entry table with
binary-search lookup, and an auto-mounting overlay (autofs).

The Go sources are shallowly embedded: strings model Go strings
(byte-level operations are modelled at the character level; all paths in
play are ASCII), Go errors are an inductive datatype, `os.FileInfo`
results are a record of the observable fields, and each Go function of
interest is translated into a computable Lean function of the same shape.
String primitives (`strings.HasPrefix`, comparisons, splitting, ...) are
implemented structurally over the character list so that every definition
evaluates inside the kernel.
-/

/-! ## Go errors

Models the error values the repository creates or inspects.
`pathNotExist` stands for `&os.PathError{Op, Path, Err: os.ErrNotExist}`,
`notExist` for the bare `os.ErrNotExist`, `notSupported` for
`vfs.ErrNotSupported`, `autofsNotSupported` for `autofs.ErrNotSupported`
(a distinct Go error value), `errDir` for `autofs.ErrDir`, and `eof` for
`io.EOF`.  `os.IsNotExist` unwraps `*os.PathError`, so it holds exactly
for `pathNotExist` and `notExist`. -/

inductive GoErr where
  | pathNotExist (op p : String)
  | notExist
  | notSupported
  | autofsNotSupported
  | errDir
  | isDirectory (s : String)
  | notDirectory (s : String)
  | eof
  | msg (s : String)
deriving DecidableEq, Repr

def isNotExistErr : GoErr → Bool
  | .pathNotExist _ _ => true
  | .notExist => true
  | _ => false

/-! ## File records

`Rec` models the observable behaviour of an `os.FileInfo`: the values of
`Name()`, `Size()`, `ModTime()` (an opaque tick count), `Mode().IsDir()`,
the permission bits of `Mode()`, and `IsDir()`. -/

structure Rec where
  name : String
  size : Int
  modTime : Int
  modeIsDir : Bool
  modePerm : Nat
  isDir : Bool
deriving DecidableEq, Repr

/-! ## String primitives (kernel-evaluable models of Go's byte-level ops) -/

def listIsPfx : List Char → List Char → Bool
  | [], _ => true
  | _ :: _, [] => false
  | a :: as, b :: bs => a = b && listIsPfx as bs

/-- `strings.HasPrefix s pfx` / `s[0] == c` style tests. -/
def strStartsWith (s pfx : String) : Bool := listIsPfx pfx.data s.data

/-- `strings.HasSuffix`. -/
def strEndsWith (s sfx : String) : Bool := listIsPfx sfx.data.reverse s.data.reverse

/-- `s[n:]` (ASCII: byte index = character index). -/
def strDrop (s : String) (n : Nat) : String := String.mk (s.data.drop n)

def strLen (s : String) : Nat := s.data.length

/-- Go byte-wise string comparison `a <= b` (lexicographic). -/
def strLeChars : List Char → List Char → Bool
  | [], _ => true
  | _ :: _, [] => false
  | a :: as, b :: bs => if a < b then true else if b < a then false else strLeChars as bs

def strLe (a b : String) : Bool := strLeChars a.data b.data

def splitSlash : List Char → List (List Char)
  | [] => [[]]
  | c :: rest =>
    if c = '/' then [] :: splitSlash rest
    else
      match splitSlash rest with
      | s :: ss => (c :: s) :: ss
      | [] => [[c]]

def joinSlash : List String → String
  | [] => ""
  | [s] => s
  | s :: rest => s ++ "/" ++ joinSlash rest

def strToLower (s : String) : String := String.mk (s.data.map Char.toLower)

/-! ## Go path helpers

Segment-level embedding of Go's `path.Clean` (the "Lexical File Names"
rules: drop empty and `.` segments, resolve `..` against a preceding
segment, never escape a rooted path's root), and of `path.Join`,
`path.Dir`, `path.Base`, `path.Split`'s file part, and `filepath.Ext`. -/

def cleanSegs (rooted : Bool) (segs : List String) : List String :=
  segs.foldl
    (fun acc seg =>
      if seg = "" ∨ seg = "." then acc
      else if seg = ".." then
        if acc ≠ [] ∧ acc.getLast? ≠ some ".." then acc.dropLast
        else if rooted then acc
        else acc ++ [".."]
      else acc ++ [seg])
    []

def goCleanPath (p : String) : String :=
  if p = "" then "."
  else
    let rooted := strStartsWith p "/"
    let segs := cleanSegs rooted ((splitSlash p.data).map String.mk)
    if segs = [] then (if rooted then "/" else ".")
    else (if rooted then "/" else "") ++ joinSlash segs

def pathJoin (a b : String) : String :=
  if a = "" then (if b = "" then "" else goCleanPath b)
  else goCleanPath (a ++ "/" ++ b)

def lastSlashIdx : List Char → Option Nat
  | [] => none
  | c :: rest =>
    match lastSlashIdx rest with
    | some i => some (i + 1)
    | none => if c = '/' then some 0 else none

def goDir (p : String) : String :=
  match lastSlashIdx p.data with
  | none => "."
  | some i => goCleanPath (String.mk (p.data.take (i + 1)))

def goBase (p : String) : String :=
  if p = "" then "."
  else
    let l := p.data.reverse.dropWhile (· = '/')
    if l = [] then "/"
    else String.mk ((l.takeWhile (· ≠ '/')).reverse)

/-- The file part of Go's `path.Split`: everything after the last slash. -/
def pathSplitFile (p : String) : String :=
  String.mk ((p.data.reverse.takeWhile (· ≠ '/')).reverse)

def extAux : List Char → List Char → String
  | [], _ => ""
  | c :: rest, acc =>
    if c = '/' then ""
    else if c = '.' then String.mk ('.' :: acc)
    else extAux rest (c :: acc)

/-- `filepath.Ext`: the suffix of the final path element starting at its
last dot, or the empty string. -/
def goExt (p : String) : String := extAux p.data.reverse []

/-- Go's `hasPathPrefix` from vfs: `x == y || x == y + "/" + more`. -/
def hasPathPfx (x y : String) : Bool :=
  x == y || (strStartsWith x y && (strEndsWith y "/" || strStartsWith (strDrop x (strLen y)) "/"))

/-! ## sort.Search

Go's `sort.Search(n, f)` binary search returns the smallest index in
`[0, n]` at which the monotone predicate `f` is true (or `n` if none).
The loop halves `j - i` each iteration, so `n + 1` steps of fuel always
suffice; the fuel-exhaustion branch is unreachable. -/

def searchLoop (f : Nat → Bool) : Nat → Nat → Nat → Nat
  | 0, i, _ => i
  | fuel + 1, i, j =>
    if i < j then
      let m := (i + j) / 2
      if f m then searchLoop f fuel i m else searchLoop f fuel (m + 1) j
    else i

def sortSearch (n : Nat) (f : Nat → Bool) : Nat := searchLoop f (n + 1) 0 n

/-! ## Association-list model of a Go map (`scope[root] = mounts`) -/

def mapInsert {β : Type} (k : String) (v : β) : List (String × β) → List (String × β)
  | [] => [(k, v)]
  | (k', v') :: t => if k' = k then (k, v) :: t else (k', v') :: mapInsert k v t

def mapFind {β : Type} (k : String) : List (String × β) → Option β
  | [] => none
  | (k', v') :: t => if k' = k then some v' else mapFind k t

/-! ## Sorting

`sortBy` is a stable insertion sort; it models `sort.Sort`/`sort.SliceStable`
on the boolean `≤`-style comparison derived from the Go `Less` function
(stable plus sorted pins the result down uniquely, and the `sort.Sort`
call sites all sort lists with pairwise-distinct keys, where every sort
agrees). -/

def insertSorted {α : Type} (le : α → α → Bool) (a : α) : List α → List α
  | [] => [a]
  | b :: l => if le a b then a :: b :: l else b :: insertSorted le a l

def sortBy {α : Type} (le : α → α → Bool) : List α → List α
  | [] => []
  | a :: l => insertSorted le a (sortBy le l)

/-- `sort.Sort(byName(all))` from vfs `Scope.Readdir`. -/
def sortByName (l : List Rec) : List Rec := sortBy (fun a b => strLe a.name b.name) l

/-! ## The vfs namespace (`Scope`)

A backing `FileSystem` is modelled extensionally (`SFS`): the behaviour of
its four methods.  `Open` results are opaque stream handles (`Nat`).
`Mount` is the `fileSystem{root, base, fs}` triple, and a `Scope` is the
Go map from mount point to mount list, modelled as an association list
(Go map iteration order is unspecified; it is observable only in
`Readdir`'s mount-point injection, where it cannot change the result
set). -/

structure SFS where
  stat : String → Except GoErr Rec
  lstat : String → Except GoErr Rec
  openF : String → Except GoErr Nat
  readdir : String → Except GoErr (List Rec)

/-- The always-empty root filesystem (`vfs.empty`): `Stat("/")` returns
itself (`Name "/"`, `ModeDir|ModePerm`, `IsDir`), everything else is
`os.ErrNotExist`; `Readdir("/")` is empty; `Open("/")` is an
"is a directory" error. -/
def emptyRec : Rec := ⟨"/", 0, 0, true, 0o777, true⟩

def emptyFS : SFS where
  stat := fun p => if p = "/" then .ok emptyRec else .error .notExist
  lstat := fun p => if p = "/" then .ok emptyRec else .error .notExist
  openF := fun p =>
    if p = "/" then .error (.isDirectory "open: / is a directory") else .error .notExist
  readdir := fun p => if p = "/" then .ok [] else .error .notExist

structure Mount where
  root : String
  base : String
  fs : SFS

abbrev Scope : Type := List (String × List Mount)

/-- `Scope.clean`: `path.Clean("/" + name)`. -/
def scopeCleanPath (name : String) : String := goCleanPath ("/" ++ name)

/-- `fileSystem.translate`: check `hasPathPrefix(name, root)` and splice
`base` in front of the remainder.  Go panics when the prefix check fails;
that branch is modelled by a sentinel value (it is unreachable for scopes
built through `bindM`, whose stored roots are ancestors of their key). -/
def translateM (m : Mount) (name : String) : String :=
  let n := goCleanPath ("/" ++ name)
  if hasPathPfx n m.root then pathJoin m.base (strDrop n (strLen m.root))
  else "__translate_panic__"

/-- `Scope.resolve`: walk from the cleaned name up through `path.Dir`
ancestors until a key of the scope map is hit (the root key, if any,
terminates the walk).  `goDir` strictly shortens a cleaned rooted path,
so `length + 1` steps of fuel always suffice; the fuel-exhaustion branch
is unreachable. -/
def resolveAux (scope : Scope) : Nat → String → List Mount
  | 0, _ => []
  | fuel + 1, n =>
    match mapFind n scope with
    | some ms => ms
    | none => if n = "/" then [] else resolveAux scope fuel (goDir n)

def resolveM (scope : Scope) (name : String) : List Mount :=
  let n := scopeCleanPath name
  resolveAux scope (strLen n + 1) n

inductive BindMode where
  | replace
  | before
  | after
deriving DecidableEq, Repr

/-- `Scope.Bind`.  The Go source then runs
`for _, mount := range mounts { if mount.root != root { ... mount.root =
path.Join(...); mount.base = path.Join(...) } }` intending to re-anchor
inherited mounts — but `mount` is a per-iteration copy of the slice
element, so the rewritten values are discarded and the stored slice is
unchanged.  `reanchorCopy` is what each discarded copy holds. -/
def reanchorCopy (root : String) (m : Mount) : Mount :=
  if m.root ≠ root then
    if hasPathPfx root m.root then
      let suffix := strDrop root (strLen m.root)
      { m with root := pathJoin m.root suffix, base := pathJoin m.base suffix }
    else m  -- Go panics here; unreachable for scopes built through bindM
  else m

def bindM (scope : Scope) (root0 base0 : String) (fs : SFS) (mode : BindMode) : Scope :=
  let root := scopeCleanPath root0
  let base := scopeCleanPath base0
  let newFS : Mount := ⟨root, base, fs⟩
  let mounts : List Mount :=
    match mode with
    | .replace => [newFS]
    | .before => newFS :: resolveM scope root
    | .after => resolveM scope root ++ [newFS]
  -- the re-anchoring loop operates on copies; its results are discarded
  let _ := mounts.map (reanchorCopy root)
  mapInsert root mounts scope

/-- `NewScope`: a scope with the empty filesystem bound at `/`. -/
def newScopeM : Scope := bindM [] "/" "/" emptyFS .replace

/-- The error-accumulation loop shared by `Scope.Stat` and `Scope.Lstat`
(`scope.stat`): first success wins; otherwise the first error recorded
(`if err == nil { err = err1 }`); otherwise a synthesized
`&os.PathError{"stat", name, ErrNotExist}`. -/
def statLoop (f : SFS → String → Except GoErr Rec) (name : String) :
    List Mount → Option GoErr → Except GoErr Rec
  | [], none => .error (.pathNotExist "stat" name)
  | [], some e => .error e
  | m :: ms, acc =>
    match f m.fs (translateM m name) with
    | .ok r => .ok r
    | .error e1 =>
      statLoop f name ms (match acc with | none => some e1 | some e => some e)

def scopeStatM (scope : Scope) (name : String) : Except GoErr Rec :=
  statLoop (fun fs p => fs.stat p) name (resolveM scope name) none

def scopeLstatM (scope : Scope) (name : String) : Except GoErr Rec :=
  statLoop (fun fs p => fs.lstat p) name (resolveM scope name) none

/-- `Scope.Open`: as `scope.stat`, but a recorded "not exist" error is
replaced by a later error (`if err == nil || os.IsNotExist(err) { err =
err1 }`), so a genuine error is preferred over an earlier "not exist". -/
def openLoop (name : String) : List Mount → Option GoErr → Except GoErr Nat
  | [], none => .error (.pathNotExist "open" name)
  | [], some e => .error e
  | m :: ms, acc =>
    match m.fs.openF (translateM m name) with
    | .ok r => .ok r
    | .error e1 =>
      let acc' :=
        match acc with
        | none => some e1
        | some e => if isNotExistErr e then some e1 else some e
      openLoop name ms acc'

def scopeOpenM (scope : Scope) (name : String) : Except GoErr Nat :=
  openLoop name (resolveM scope name) none

/-! ### `Scope.Readdir` -/

/-- The running state of `Scope.Readdir`'s merge: `haveGo`, the
`haveName` set, the accumulated `all`, the first error, and the first
successful listing. -/
structure RdState where
  haveGo : Bool
  seen : List String
  all : List Rec
  err : Option GoErr
  first : Option (List Rec)

/-- The per-listing accumulation loop
`for _, d := range dir { if (d.IsDir() || useFiles) && !haveName[name] { ... } }`:
entries passing `p` and not yet seen are appended and their names marked. -/
def addEntries (p : Rec → Bool) : List Rec → List String → List Rec →
    List String × List Rec
  | [], seen, acc => (seen, acc)
  | d :: ds, seen, acc =>
    if p d && !(seen.contains d.name) then
      addEntries p ds (d.name :: seen) (acc ++ [d])
    else addEntries p ds seen acc

/-- One iteration of `Scope.Readdir`'s bind loop. -/
def bindStep (name : String) (st : RdState) (m : Mount) : RdState :=
  match m.fs.readdir (translateM m name) with
  | .error e1 =>
    { st with err := match st.err with | none => some e1 | some e => some e }
  | .ok dir =>
    let first := match st.first with | none => some dir | some f => some f
    let useFiles := !st.haveGo && dir.any (fun d => strEndsWith d.name ".go")
    let haveGo := st.haveGo || useFiles
    let sa := addEntries (fun d => d.isDir || useFiles) dir st.seen st.all
    ⟨haveGo, sa.1, sa.2, st.err, first⟩

/-- `dirInfo` from vfs: a synthetic directory record (`ModeDir | 0555`). -/
def scopeDirRec (n : String) : Rec := ⟨n, 0, 0, true, 0o555, true⟩

/-- The mount-point injection loop: for every scope key strictly below
the queried directory, add a synthetic directory entry for the next path
element unless the name is taken. -/
def injectMounts (name : String) : List (String × List Mount) → List String →
    List Rec → List String × List Rec
  | [], seen, all => (seen, all)
  | (old, _) :: rest, seen, all =>
    if hasPathPfx old name && old ≠ name then
      let elem0 := strDrop old (strLen name)
      let elem1 := if strStartsWith elem0 "/" then strDrop elem0 1 else elem0
      let elem := String.mk (elem1.data.takeWhile (· ≠ '/'))
      if seen.contains elem then injectMounts name rest seen all
      else injectMounts name rest (elem :: seen) (all ++ [scopeDirRec elem])
    else injectMounts name rest seen all

def scopeReaddirM (scope : Scope) (name0 : String) : Except GoErr (List Rec) :=
  let name := scopeCleanPath name0
  let st := (resolveM scope name).foldl (bindStep name) ⟨false, [], [], none, none⟩
  let sa1 :=
    if st.haveGo then (st.seen, st.all)
    else addEntries (fun _ => true) (st.first.getD []) st.seen st.all
  let sa2 := injectMounts name scope sa1.1 sa1.2
  if sa2.2.isEmpty then
    match st.err with
    | some e => .error e
    | none => .ok []
  else .ok (sortByName sa2.2)

/-! ## zipfs

The entry table is the sorted list of `*zip.FileHeader`s; `uncompressedSize`
is the legacy 32-bit `UncompressedSize` field (a `uint32`, so its value is
the field's contents reduced modulo `2^32`).  `ZRec` is zipfs's `fileInfo`
(`file == nil` marks a directory). -/

structure ZipHeader where
  name : String
  uncompressedSize : Nat
deriving DecidableEq, Repr, Inhabited

structure ZRec where
  name : String
  file : Option ZipHeader
deriving DecidableEq, Repr

def zrecIsDir (fi : ZRec) : Bool := fi.file.isNone

/-- zipfs `fileInfo.Size`: `int64(f.UncompressedSize)` for a file, `0` for
a directory. -/
def zrecSize (fi : ZRec) : Int :=
  match fi.file with
  | some f => (f.uncompressedSize : Int)
  | none => 0

/-- zipfs `fileSystem.lookup`: binary search for an exact match, then for
an inexact (`name + "/"` prefixed) match in the remaining slice.  Returns
`(-1, false)` when neither exists. -/
def zipLookup (list : List ZipHeader) (name : String) : Int × Bool :=
  let i := sortSearch list.length (fun k => strLe name (list.getD k default).name)
  if i ≥ list.length then (-1, false)
  else if (list.getD i default).name = name then ((i : Int), true)
  else
    let rest := list.drop i
    let name1 := name ++ "/"
    let j := sortSearch rest.length (fun k => strLe name1 (rest.getD k default).name)
    if j ≥ rest.length then (-1, false)
    else if strStartsWith (rest.getD j default).name name1 then (((i + j : Nat) : Int), false)
    else (-1, false)

/-- `zipPath`: clean, require an absolute path, strip the leading slash. -/
def zipPathM (name : String) : Except GoErr String :=
  let n := goCleanPath name
  if strStartsWith n "/" then .ok (strDrop n 1)
  else .error (.msg ("stat: not an absolute path: " ++ n))

def isRootP (p : String) : Bool := goCleanPath p == "/"

/-- zipfs `fileSystem.stat`: root is a synthetic directory; otherwise
look the stripped path up and build a `fileInfo` whose name is the last
path element and whose header is present exactly for exact matches. -/
def zipStatIdx (list : List ZipHeader) (abspath : String) :
    Except GoErr (Nat × ZRec) :=
  if isRootP abspath then .ok (0, ⟨"", none⟩)
  else
    match zipPathM abspath with
    | .error e => .error e
    | .ok zp =>
      let r := zipLookup list zp
      if r.1 < 0 then .error (.pathNotExist "" ("/" ++ zp))
      else
        let nm := pathSplitFile zp
        let file := if r.2 then some (list.getD r.1.toNat default) else none
        .ok (r.1.toNat, ⟨nm, file⟩)

def zipStatM (list : List ZipHeader) (abspath : String) : Except GoErr ZRec :=
  (zipStatIdx list abspath).map (·.2)

/-- The scan loop of zipfs `fileSystem.Readdir`: walk the table from the
matched index while entries keep the `dirname` prefix; truncate local
names at the first slash (inferred directories, no header) and skip an
entry whose local name equals the previous one. -/
def zipScan (dirname : String) (prev : String) : List ZipHeader → List ZRec
  | [] => []
  | e :: rest =>
    if !(strStartsWith e.name dirname) then []
    else
      let nm0 := strDrop e.name (strLen dirname)
      let hasSlash := nm0.data.any (· = '/')
      let nm := if hasSlash then String.mk (nm0.data.takeWhile (· ≠ '/')) else nm0
      let file : Option ZipHeader := if hasSlash then none else some e
      if nm = prev then zipScan dirname prev rest
      else ⟨nm, file⟩ :: zipScan dirname nm rest

def zipReaddirM (list : List ZipHeader) (abspath : String) :
    Except GoErr (List ZRec) :=
  match zipStatIdx list abspath with
  | .error e => .error e
  | .ok (i, fi) =>
    if !(zrecIsDir fi) then
      .error (.notDirectory ("zipfs: " ++ abspath ++ " is not a directory"))
    else if isRootP abspath then .ok (zipScan "" "" (list.drop i))
    else
      match zipPathM abspath with
      | .error e => .error e
      | .ok zp => .ok (zipScan (zp ++ "/") "" (list.drop i))

/-- A raw archive member as the fresh decode stream yields it
(`z.File` for zip). -/
structure ZipRawFile where
  name : String
  uncompressedSize : Nat
  content : List Nat
deriving DecidableEq, Repr

/-- The entry table built by zipfs `open`: headers copied out of the
archive and sorted stably by name. -/
def zipTable (files : List ZipRawFile) : List ZipHeader :=
  sortBy (fun a b => strLe a.name b.name)
    (files.map (fun f => ⟨f.name, f.uncompressedSize⟩))

/-- zipfs `fileSystem.Open`: stat, reject directories, reopen the archive
and scan `z.File` for the entry whose name equals the retained header's
full name (`file.Name == fi.file.Name`); the result is the stream over
that member's content.  A failed scan is Go's `panic("unreachable")`. -/
def zipOpenM (files : List ZipRawFile) (abspath : String) :
    Except GoErr (List Nat) :=
  match zipStatM (zipTable files) abspath with
  | .error e => .error e
  | .ok fi =>
    if zrecIsDir fi then .error (.isDirectory ("zipfs: " ++ abspath ++ " is a directory"))
    else
      match fi.file with
      | none => .error (.msg "panic: unreachable")
      | some hdr =>
        match files.find? (fun f => f.name = hdr.name) with
        | some f => .ok f.content
        | none => .error (.msg "panic: unreachable")

/-! ### zipfs `emulatedRSC`

`fs.Open` returns `emulatedRSC{ReadCloser: f, Closer: z, ...}` packed in
a `vfs.ReadSeekCloser` interface.  `ZipRSC` models the caller-visible
stream: the member reader's remaining bytes and whether that shared
reader object has been closed (a closed `flate`/checksum reader fails
subsequent reads with "Read after Close"). -/

structure ZipRSC where
  memberRemaining : List Nat
  memberClosed : Bool
deriving DecidableEq, Repr

def zrscReadAll (s : ZipRSC) : Except GoErr (List Nat × ZipRSC) :=
  if s.memberClosed then .error (.msg "Read after Close")
  else .ok (s.memberRemaining, ⟨[], false⟩)

/-- What `emulatedRSC.Seek(0, 0)`'s method body computes on its local
copy of the receiver: it calls `rsc.open()` — the raw reopen function,
yielding the whole archive's bytes, not a decode cursor scanned to the
member — closes the member reader, and stores the raw handle in the
copy's `ReadCloser` field. -/
def zrscSeekZeroMethodCopy (archiveRawBytes : List Nat) : ZipRSC :=
  ⟨archiveRawBytes, false⟩

/-- The caller-visible effect of `Seek(0, 0)`: the method has a value
receiver, so the caller's struct (inside the interface) is unchanged,
while the shared member-reader object it closed stays closed. -/
def zrscSeekZeroCaller (s : ZipRSC) : ZipRSC := ⟨s.memberRemaining, true⟩

/-! ## rarfs

Raw headers carry the full in-archive name, the directory flag, the
special-file flag (device/socket/fifo/symlink) and the member content.
`open` drops special files, appends `/` to directory names and sorts
stably by name.  `RRec` is rarfs's `fileInfo` (`IsDir` also consults the
header's own flag). -/

structure RarHeader where
  name : String
  isDir : Bool
  special : Bool
  content : List Nat
deriving DecidableEq, Repr, Inhabited

structure RRec where
  name : String
  file : Option RarHeader
deriving DecidableEq, Repr

def rrecIsDir (fi : RRec) : Bool :=
  match fi.file with
  | none => true
  | some f => f.isDir

def rarTable (raw : List RarHeader) : List RarHeader :=
  sortBy (fun a b => strLe a.name b.name)
    ((raw.filter (fun h => !h.special)).map
      (fun h => if h.isDir then { h with name := h.name ++ "/" } else h))

/-- rarfs `fileSystem.lookup` (same algorithm as zipfs, duplicated per
format in the source). -/
def rarLookup (list : List RarHeader) (name : String) : Int × Bool :=
  let i := sortSearch list.length (fun k => strLe name (list.getD k default).name)
  if i ≥ list.length then (-1, false)
  else if (list.getD i default).name = name then ((i : Int), true)
  else
    let rest := list.drop i
    let name1 := name ++ "/"
    let j := sortSearch rest.length (fun k => strLe name1 (rest.getD k default).name)
    if j ≥ rest.length then (-1, false)
    else if strStartsWith (rest.getD j default).name name1 then (((i + j : Nat) : Int), false)
    else (-1, false)

def rarStatIdx (list : List RarHeader) (abspath : String) :
    Except GoErr (Nat × RRec) :=
  if isRootP abspath then .ok (0, ⟨"", none⟩)
  else
    match zipPathM abspath with
    | .error e => .error e
    | .ok rp =>
      let r := rarLookup list rp
      if r.1 < 0 then .error (.pathNotExist "" ("/" ++ rp))
      else
        let nm := pathSplitFile rp
        let file := if r.2 then some (list.getD r.1.toNat default) else none
        .ok (r.1.toNat, ⟨nm, file⟩)

def rarStatM (list : List RarHeader) (abspath : String) : Except GoErr RRec :=
  (rarStatIdx list abspath).map (·.2)

/-- rarfs `fileSystem.Open`: stat, reject directories, reopen and call
`z.Next()` until `h.Name == fi.name` — `fi.name` is the *last path
element* from `path.Split`, not the full archive name.  Exhausting the
fresh stream surfaces `io.EOF` from `z.Next`. -/
def rarOpenM (raw : List RarHeader) (abspath : String) : Except GoErr (List Nat) :=
  match rarStatM (rarTable raw) abspath with
  | .error e => .error e
  | .ok fi =>
    if rrecIsDir fi then .error (.isDirectory ("rarfs: " ++ abspath ++ " is a directory"))
    else
      match raw.find? (fun h => h.name = fi.name) with
      | some h => .ok h.content
      | none => .error .eof

/-! ## tarfs

`clean(name) = path.Clean("/" + name)[1:]` is applied to header names in
every comparison (the table is sorted by cleaned names). -/

structure TarHeader where
  name : String
  isDir : Bool
  content : List Nat
deriving DecidableEq, Repr, Inhabited

structure TRec where
  name : String
  file : Option TarHeader
deriving DecidableEq, Repr

def trecIsDir (fi : TRec) : Bool :=
  match fi.file with
  | none => true
  | some f => f.isDir

def tarCleanName (n : String) : String := strDrop (goCleanPath ("/" ++ n)) 1

def tarTable (raw : List TarHeader) : List TarHeader :=
  sortBy (fun a b => strLe (tarCleanName a.name) (tarCleanName b.name)) raw

/-- tarfs `fileSystem.lookup`.  After the exact search misses, the source
rebases the table (`fs.list = fs.list[i:]`) and binary-searches it for
`name + "/"` at index `j` — but then tests
`strings.HasPrefix(clean(fs.list[i].Name), name)`, indexing the *rebased*
slice with the outer index `i` instead of `j`.  With `2*i ≥ len` the Go
code panics with an index-out-of-range; the model's `getD` only matters
in-range for the inputs considered here. -/
def tarLookup (list : List TarHeader) (name : String) : Int × Bool :=
  let i := sortSearch list.length (fun k => strLe name (tarCleanName (list.getD k default).name))
  if i ≥ list.length then (-1, false)
  else if tarCleanName (list.getD i default).name = name then ((i : Int), true)
  else
    let rest := list.drop i
    let name1 := name ++ "/"
    let j := sortSearch rest.length
      (fun k => strLe name1 (tarCleanName (rest.getD k default).name))
    if j ≥ rest.length then (-1, false)
    else if strStartsWith (tarCleanName (rest.getD i default).name) name1 then
      (((i + j : Nat) : Int), false)
    else (-1, false)

/-- tarfs `fileSystem.stat`.  Beyond the lookup, note
`name = path.Clean("/" + name)` applied to the split-off last element, so
the resulting `fileInfo.name` carries a leading slash. -/
def tarStatIdx (list : List TarHeader) (abspath : String) :
    Except GoErr (Nat × TRec) :=
  if isRootP abspath then .ok (0, ⟨"", none⟩)
  else
    let tp := tarCleanName abspath
    let r := tarLookup list tp
    if r.1 < 0 then .error (.pathNotExist "" ("/" ++ tp))
    else
      let nm := pathSplitFile tp
      let file := if r.2 then some (list.getD r.1.toNat default) else none
      .ok (r.1.toNat, ⟨goCleanPath ("/" ++ nm), file⟩)

def tarStatM (list : List TarHeader) (abspath : String) : Except GoErr TRec :=
  (tarStatIdx list abspath).map (·.2)

/-- tarfs `fileSystem.Open`: scan the fresh stream until
`h.Name == info.name`, where `info.name` is the cleaned-with-leading-slash
last path element; exhaustion surfaces `io.EOF`. -/
def tarOpenM (raw : List TarHeader) (abspath : String) : Except GoErr (List Nat) :=
  match tarStatM (tarTable raw) abspath with
  | .error e => .error e
  | .ok fi =>
    if trecIsDir fi then .error (.isDirectory ("tarfs: " ++ abspath ++ " is a directory"))
    else
      match raw.find? (fun h => h.name = fi.name) with
      | some h => .ok h.content
      | none => .error .eof

/-! ## autofs

The overlay map goes from absolute path to mounted filesystem (modelled
as `SFS`).  Opening an archive through a format adapter is abstracted as
a parameter `ad : String → String → Except GoErr SFS` (extension, path),
standing for `rarfs/tarfs/zipfs.OpenFile(fs.Scope, name)`. -/

/-- The `hasFileSystem` extension map. -/
def hasFSExt (e : String) : Bool := e = ".rar" || e = ".tar" || e = ".zip"

/-- autofs `dirInfo`: a synthesized directory record (`ModeDir | 0555`)
keeping the given name, size and modTime. -/
def autofsDirRec (n : String) (sz mt : Int) : Rec := ⟨n, sz, mt, true, 0o555, true⟩

/-- autofs `openFileSystem`: stat through the scope, reject directories,
then dispatch on the lower-cased extension of the *stat result's name*;
unknown extensions yield autofs's own `ErrNotSupported` (distinct from
`vfs.ErrNotSupported`). -/
def openFileSystemM (ad : String → String → Except GoErr SFS) (scope : Scope)
    (name : String) : Except GoErr SFS :=
  match scopeStatM scope name with
  | .error e => .error e
  | .ok info =>
    if info.isDir then .error .errDir
    else
      let e := strToLower (goExt info.name)
      if e = ".rar" then ad ".rar" name
      else if e = ".tar" then ad ".tar" name
      else if e = ".zip" then ad ".zip" name
      else .error .autofsNotSupported

/-- The ancestor walk shared by autofs `Readdir`, `Lstat` and `Stat`:
`dir, base := name, "/"`, look `dir` up in the overlay map, then chop at
the last slash (`dir, base = dir[:i], dir[i:]`) until no slash remains.
`goDir`-style chopping strictly shortens `dir`, so `length + 1` steps of
fuel always suffice. -/
def overlayWalk (ov : List (String × SFS)) : Nat → String → String →
    Option (SFS × String)
  | 0, _, _ => none
  | fuel + 1, dir, base =>
    match mapFind dir ov with
    | some f => some (f, base)
    | none =>
      match lastSlashIdx dir.data with
      | some i =>
        overlayWalk ov fuel (String.mk (dir.data.take i)) (String.mk (dir.data.drop i))
      | none => none

def overlayWalkFrom (ov : List (String × SFS)) (nm : String) : Option (SFS × String) :=
  overlayWalk ov (strLen nm + 1) nm "/"

/-- The post-processing loop of autofs `Readdir`: for each entry, if its
full path is already mounted, rewrite it to a directory record; otherwise
if its extension is a known archive extension, probe-mount it — on
success register the mount and rewrite the record, on `vfs.ErrNotSupported`
leave the entry untouched (the transient map entry is deleted again), and
on any other error fail the whole listing. -/
def autofsProbe (ad : String → String → Except GoErr SFS) (scope : Scope)
    (name : String) : List Rec → List (String × SFS) →
    Except GoErr (List Rec × List (String × SFS))
  | [], ov => .ok ([], ov)
  | info :: rest, ov =>
    let full := pathJoin name (goBase info.name)
    if (mapFind full ov).isSome then
      match autofsProbe ad scope name rest ov with
      | .error e => .error e
      | .ok (l, ov') => .ok (autofsDirRec info.name info.size info.modTime :: l, ov')
    else if hasFSExt (strToLower (goExt full)) then
      match openFileSystemM ad scope full with
      | .error e =>
        if e = .notSupported then
          match autofsProbe ad scope name rest ov with
          | .error e' => .error e'
          | .ok (l, ov') => .ok (info :: l, ov')
        else .error e
      | .ok nfs =>
        match autofsProbe ad scope name rest (mapInsert full nfs ov) with
        | .error e => .error e
        | .ok (l, ov') => .ok (autofsDirRec info.name info.size info.modTime :: l, ov')
    else
      match autofsProbe ad scope name rest ov with
      | .error e => .error e
      | .ok (l, ov') => .ok (info :: l, ov')

def autofsReaddirM (ad : String → String → Except GoErr SFS) (scope : Scope)
    (ov : List (String × SFS)) (name0 : String) :
    Except GoErr (List Rec × List (String × SFS)) :=
  let nm := goCleanPath ("/" ++ name0)
  match overlayWalkFrom ov nm with
  | some (fsO, base) =>
    match fsO.readdir base with
    | .error e => .error e
    | .ok l => .ok (l, ov)
  | none =>
    match scopeReaddirM scope nm with
    | .error e => .error e
    | .ok infos => autofsProbe ad scope nm infos ov

/-- autofs `fileSystem.stat`: stat through the scope (the function
parameter of the Go version is unused — `Lstat` also ends up in
`Scope.Stat`), then rewrite any record with a known archive extension to
a synthesized directory record, preserving name, size and modTime. -/
def autofsStatCore (scope : Scope) (nm : String) : Except GoErr Rec :=
  match scopeStatM scope nm with
  | .error e => .error e
  | .ok info =>
    if hasFSExt (strToLower (goExt info.name)) then
      .ok (autofsDirRec info.name info.size info.modTime)
    else .ok info

/-- autofs `fileSystem.Stat`: exact overlay hit returns a bare directory
record named by the full path; otherwise the ancestor walk delegates into
a mounted archive; otherwise `stat` through the scope. -/
def autofsStatM (scope : Scope) (ov : List (String × SFS)) (name0 : String) :
    Except GoErr Rec :=
  let nm := goCleanPath ("/" ++ name0)
  if (mapFind nm ov).isSome then .ok (autofsDirRec nm 0 0)
  else
    match overlayWalkFrom ov nm with
    | some (fsO, base) => fsO.stat base
    | none => autofsStatCore scope nm

/-- autofs `fileSystem.Lstat`: same shape as `Stat`; the delegated call
on a mounted overlay is `Lstat`, but the fallthrough also reaches
`Scope.Stat` (the Go helper ignores its function argument). -/
def autofsLstatM (scope : Scope) (ov : List (String × SFS)) (name0 : String) :
    Except GoErr Rec :=
  let nm := goCleanPath ("/" ++ name0)
  if (mapFind nm ov).isSome then .ok (autofsDirRec nm 0 0)
  else
    match overlayWalkFrom ov nm with
    | some (fsO, base) => fsO.lstat base
    | none => autofsStatCore scope nm

/-! ## Spec-side formulations

The following definitions transcribe the *specification's* wording (they
are deliberately not read off the Go control flow) and are compared
against the source-derived functions in the refinement theorems below. -/

def specFirstOk {α : Type} : List (Except GoErr α) → Option α
  | [] => none
  | .ok v :: _ => some v
  | .error _ :: rs => specFirstOk rs

def specErrs {α : Type} (rs : List (Except GoErr α)) : List GoErr :=
  rs.filterMap (fun r => match r with | .ok _ => none | .error e => some e)

/-- Spec: "the first to succeed wins; if all fail, the first error". -/
def specStatOutcome {α : Type} (rs : List (Except GoErr α)) (dflt : GoErr) :
    Except GoErr α :=
  match specFirstOk rs with
  | some v => .ok v
  | none => .error ((specErrs rs).head?.getD dflt)

/-- Spec (amended): "the first to succeed wins; if all fail, the first
non-'not exist' error; if every failure is 'not exist', a 'not exist'
error (the last one recorded)". -/
def specOpenOutcome {α : Type} (rs : List (Except GoErr α)) (dflt : GoErr) :
    Except GoErr α :=
  match specFirstOk rs with
  | some v => .ok v
  | none =>
    .error (((specErrs rs).find? (fun e => !isNotExistErr e)).getD
      ((specErrs rs).getLast?.getD dflt))

def mountResults {α : Type} (scope : Scope) (name : String)
    (f : Mount → Except GoErr α) : List (Except GoErr α) :=
  (resolveM scope name).map f

/-- The error accumulator of `Scope.Open`'s loop, folded over the errors
encountered (`if err == nil || os.IsNotExist(err) { err = err1 }`). -/
def openErrAcc (acc : Option GoErr) (errs : List GoErr) : Option GoErr :=
  errs.foldl
    (fun a e1 =>
      match a with
      | none => some e1
      | some e => if isNotExistErr e then some e1 else some e)
    acc

/-- Keep the first record of each name (the spec's "duplicate names
collapsed"), threading the set of taken names. -/
def dedupRecs : List Rec → List String → List Rec
  | [], _ => []
  | d :: ds, seen =>
    if seen.contains d.name then dedupRecs ds seen
    else d :: dedupRecs ds (d.name :: seen)

/-- Spec (amended merge): directory-only entries of both listings, plus
the whole first listing as the fallback base, deduplicated by name and
sorted. -/
def specMergeUnion (ds1 ds2 : List Rec) : List Rec :=
  sortByName (dedupRecs (ds1.filter (fun d => d.isDir) ++
    ds2.filter (fun d => d.isDir) ++ ds1) [])

/-! ## Concrete scenarios used by the claim theorems -/

/-- A backing filesystem all of whose operations fail with a bare
"not exist". -/
def stubAllErr : SFS where
  stat := fun _ => .error .notExist
  lstat := fun _ => .error .notExist
  openF := fun _ => .error .notExist
  readdir := fun _ => .error .notExist

/-- A backing filesystem with a fixed directory listing (other operations
fail with "not exist"). -/
def fsWithReaddir (l : List Rec) : SFS where
  stat := fun _ => .error .notExist
  lstat := fun _ => .error .notExist
  openF := fun _ => .error .notExist
  readdir := fun _ => .ok l

/-- A backing filesystem with a fixed stat result (other operations fail
with "not exist"). -/
def fsWithStat (r : Rec) : SFS where
  stat := fun _ => .ok r
  lstat := fun _ => .ok r
  openF := fun _ => .error .notExist
  readdir := fun _ => .error .notExist

def c1TarRaw : List TarHeader := [⟨"a", false, []⟩, ⟨"b/c", false, []⟩, ⟨"x", false, []⟩]

def c1ZipTable : List ZipHeader := [⟨"a", 0⟩, ⟨"b/c", 0⟩, ⟨"x", 0⟩]

def c1RarRaw : List RarHeader :=
  [⟨"a", false, false, []⟩, ⟨"b/c", false, false, []⟩, ⟨"x", false, false, []⟩]

def c2Member : List Nat := [102, 111, 111]

def c4Scope : Scope := bindM newScopeM "/x" "/y" stubAllErr .after

def c5RarRaw : List RarHeader := [⟨"x/y", false, false, [7, 8]⟩]

def c5TarRaw : List TarHeader := [⟨"foo", false, [1]⟩]

def c5ZipFiles : List ZipRawFile := [⟨"x/y", 2, [7, 8]⟩]

def c3FsA : SFS where
  stat := fun p => .error (.pathNotExist "stat" p)
  lstat := fun p => .error (.pathNotExist "lstat" p)
  openF := fun _ => .error .notExist
  readdir := fun _ => .error .notExist

def c3FsB : SFS where
  stat := fun _ => .error (.msg "permission denied")
  lstat := fun _ => .error (.msg "permission denied")
  openF := fun _ => .error (.msg "permission denied")
  readdir := fun _ => .error (.msg "permission denied")

def c3Scope : Scope := bindM (bindM newScopeM "/" "/" c3FsA .replace) "/" "/" c3FsB .after

def c6File : Rec := ⟨"f", 3, 0, false, 0o444, false⟩

def c6Dir : Rec := ⟨"d", 0, 0, true, 0o555, true⟩

def c6FsFiles : SFS := fsWithReaddir [c6File]

def c6FsDirs : SFS := fsWithReaddir [c6Dir]

def c6Scope : Scope := bindM (bindM newScopeM "/" "/" c6FsFiles .replace) "/" "/" c6FsDirs .after

def c7Table : List ZipHeader := [⟨"d/a", 1⟩, ⟨"d/a.b", 2⟩, ⟨"d/a/x", 3⟩]

def c8Broken : Rec := ⟨"broken.zip", 7, 0, false, 0o444, false⟩

/-- A backing filesystem exposing the single (invalid) archive file
`broken.zip`. -/
def c8Fs : SFS where
  stat := fun _ => .ok c8Broken
  lstat := fun _ => .ok c8Broken
  openF := fun _ => .error .notExist
  readdir := fun _ => .ok [c8Broken]

def c8Scope : Scope := bindM newScopeM "/" "/" c8Fs .replace

/-- A format-adapter opener that always reports the distinguished
unsupported-format error (`vfs.ErrNotSupported`). -/
def c8Ad : String → String → Except GoErr SFS := fun _ _ => .error .notSupported

def c9Info : Rec := ⟨"ARCHIVE.ZIP", 10, 5, false, 0o644, false⟩

def c9Scope : Scope := bindM newScopeM "/" "/" (fsWithStat c9Info) .replace


/-! ## Claim theorems -/

/-- Claim C1 (code bug in tarfs).  Lookup correctness demands that every
proper prefix of an inserted entry path stats as an inferred directory.
For the table with cleaned entry names `[a, b/c, x]`, `b` is a proper
prefix of the entry `b/c`, and the zip and rar lookups indeed resolve
`/b` to an inferred directory — but the tar lookup, whose inexact-match
check indexes the rebased slice with the wrong index (`fs.list[i]`
instead of `fs.list[j]`), reports "not exist". -/
theorem tarfs_lookup_prefix_code_bug :
    tarStatM (tarTable c1TarRaw) "/b" = .error (.pathNotExist "" "/b") ∧
    zipStatM c1ZipTable "/b" = .ok ⟨"b", none⟩ ∧
    rarStatM (rarTable c1RarRaw) "/b" = .ok ⟨"b", none⟩ :=
  ⟨rfl, rfl, rfl⟩

/-- Claim C2 (code bug).  Reading a freshly opened zip member stream
yields its content, but after `Seek(0, 0)` — whose value receiver
discards the rebound reader while the shared member reader it closed
stays closed — the next read fails instead of reproducing the content,
so not even one rewind cycle yields byte-identical content. -/
theorem seek_rewind_code_bug :
    zrscReadAll ⟨c2Member, false⟩ = .ok (c2Member, ⟨[], false⟩) ∧
    zrscReadAll (zrscSeekZeroCaller ⟨[], false⟩) = .error (.msg "Read after Close") ∧
    zrscReadAll (zrscSeekZeroCaller ⟨[], false⟩) ≠ .ok (c2Member, ⟨[], false⟩) :=
  ⟨rfl, rfl, fun h => nomatch h⟩

/-- Claim C3 (counterexample).  With a first bind failing "not exist" and
a second bind failing with a genuine error, `Stat` and `Lstat` return the
earlier "not exist" (their loop keeps the first error unconditionally),
contradicting the claim that all three operations return the first
non-"not exist" error; `Open` does implement the preference. -/
theorem scope_stat_preference_counterexample :
    scopeStatM c3Scope "/x" = .error (.pathNotExist "stat" "/x") ∧
    scopeLstatM c3Scope "/x" = .error (.pathNotExist "lstat" "/x") ∧
    scopeOpenM c3Scope "/x" = .error (.msg "permission denied") :=
  ⟨rfl, rfl, rfl⟩

/-- Claim C4 (code bug).  After `Bind("/x", "/y", fs, BindAfter)` on a
fresh scope, the chain stored under key `/x` still contains the inherited
root bind with `root = "/"` — the re-anchoring loop mutates per-iteration
copies, so the invariant `mount.root == root` fails.  The second conjunct
shows the rewrite the loop computes (and discards) would have re-anchored
that mount to `/x`. -/
theorem bind_reanchor_code_bug :
    (mapFind "/x" c4Scope).map (fun ms => ms.map Mount.root) = some ["/", "/x"] ∧
    (reanchorCopy "/x" ⟨"/", "/", emptyFS⟩).root = "/x" :=
  ⟨rfl, rfl⟩

/-- Claim C5 (code bug in rarfs/tarfs).  `Open` must scan the fresh
stream for the entry whose *full* archive-native name matches the target.
zipfs does (and opens `x/y`), but rarfs compares against the last path
element (`y`) and tarfs against the cleaned last element with a leading
slash (`/foo`), so both scans run off the end of the stream and surface
`io.EOF` instead of the member's content. -/
theorem archive_open_scan_code_bug :
    rarOpenM c5RarRaw "/x/y" = .error .eof ∧
    tarOpenM c5TarRaw "/foo" = .error .eof ∧
    zipOpenM c5ZipFiles "/x/y" = .ok [7, 8] :=
  ⟨rfl, rfl, rfl⟩

/-- Claim C10.  zipfs reports the 32-bit `UncompressedSize` header field
as the member's size; when that field holds the true uncompressed size
reduced modulo `2^32` (the value of a `uint32`), any member of true size
at least `2^32` bytes is reported with a different size. -/
theorem zip_size_uint32 (nm : String) (f : ZipHeader) (trueSize : Nat)
    (h : f.uncompressedSize = trueSize % 2 ^ 32) :
    zrecSize ⟨nm, some f⟩ = ((trueSize % 2 ^ 32 : Nat) : Int) ∧
    (2 ^ 32 ≤ trueSize → zrecSize ⟨nm, some f⟩ ≠ (trueSize : Int)) := by
  constructor
  · simp [zrecSize, h]
  · intro hge heq
    simp only [zrecSize, h] at heq
    have h2 : trueSize % 2 ^ 32 = trueSize := by exact_mod_cast heq
    have h1 : trueSize % 2 ^ 32 < 2 ^ 32 := Nat.mod_lt _ (by norm_num)
    omega

/-- Witness for C10 at a member of true size `2^32 + 5`. -/
theorem zip_size_uint32_witness :
    zrecSize ⟨"big", some ⟨"big", 5⟩⟩ ≠ ((2 ^ 32 + 5 : Nat) : Int) :=
  (zip_size_uint32 "big" ⟨"big", 5⟩ (2 ^ 32 + 5) (by norm_num)).2 (by norm_num)

/-! ### Helper lemmas for the Scope error-propagation refinement -/

theorem statLoop_eq (f : SFS → String → Except GoErr Rec) (name : String) :
    ∀ (ms : List Mount) (acc : Option GoErr),
      statLoop f name ms acc =
        match specFirstOk (ms.map (fun m => f m.fs (translateM m name))) with
        | some v => .ok v
        | none =>
          .error
            (match acc with
             | some e => e
             | none =>
               ((specErrs (ms.map (fun m => f m.fs (translateM m name)))).head?.getD
                 (.pathNotExist "stat" name))) := by
  intro ms
  induction ms with
  | nil => intro acc; cases acc <;> rfl
  | cons m ms ih =>
    intro acc
    cases h : f m.fs (translateM m name) with
    | ok r =>
      simp [statLoop, h, specFirstOk]
    | error e1 =>
      cases acc with
      | none =>
        simp only [statLoop, h, ih, List.map_cons, specFirstOk, specErrs,
          List.filterMap_cons, List.head?_cons, Option.getD_some]
      | some e =>
        simp only [statLoop, h, ih, List.map_cons, specFirstOk, specErrs,
          List.filterMap_cons]

theorem openLoop_eq (name : String) :
    ∀ (ms : List Mount) (acc : Option GoErr),
      openLoop name ms acc =
        match specFirstOk (ms.map (fun m => m.fs.openF (translateM m name))) with
        | some v => .ok v
        | none =>
          .error
            ((openErrAcc acc
                (specErrs (ms.map (fun m => m.fs.openF (translateM m name))))).getD
              (.pathNotExist "open" name)) := by
  intro ms
  induction ms with
  | nil => intro acc; cases acc <;> rfl
  | cons m ms ih =>
    intro acc
    cases h : m.fs.openF (translateM m name) with
    | ok r =>
      simp [openLoop, h, specFirstOk]
    | error e1 =>
      cases acc with
      | none =>
        simp only [openLoop, h, ih, List.map_cons, specFirstOk, specErrs,
          List.filterMap_cons, openErrAcc, List.foldl_cons]
      | some e =>
        simp only [openLoop, h, ih, List.map_cons, specFirstOk, specErrs,
          List.filterMap_cons, openErrAcc, List.foldl_cons]

theorem openErrAcc_frozen (e : GoErr) (h : isNotExistErr e = false) :
    ∀ errs, openErrAcc (some e) errs = some e := by
  intro errs
  induction errs with
  | nil => rfl
  | cons e1 rest ih => simp [openErrAcc, h] at ih ⊢; exact ih

theorem openErrAcc_none_spec :
    ∀ errs, openErrAcc none errs =
      match errs.find? (fun x => !isNotExistErr x) with
      | some e => some e
      | none => errs.getLast? := by
  intro errs
  induction errs with
  | nil => rfl
  | cons e rest ih =>
    cases hne : isNotExistErr e with
    | false =>
      have h1 : openErrAcc none (e :: rest) = openErrAcc (some e) rest := rfl
      rw [h1, openErrAcc_frozen e hne]
      simp [List.find?, hne]
    | true =>
      cases rest with
      | nil => simp [openErrAcc, List.find?, hne]
      | cons r rs =>
        have h1 : openErrAcc none (e :: r :: rs) = openErrAcc (some e) (r :: rs) := rfl
        have h2 : openErrAcc (some e) (r :: rs) = openErrAcc none (r :: rs) := by
          simp [openErrAcc, hne]
        rw [h1, h2, ih]
        simp [List.find?, hne, List.getLast?]

/-- Claim C3 (amended).  `Open` tries each resolved bind in order and, if
all fail, returns the first non-"not exist" error (else a "not exist"
error); `Stat` and `Lstat` also let the first success win but, when all
binds fail, return the first error encountered regardless of its kind —
an earlier "not exist" *does* mask a later genuine error for them. -/
theorem scope_error_preference_amended (scope : Scope) (name : String) :
    scopeStatM scope name =
      specStatOutcome (mountResults scope name (fun m => m.fs.stat (translateM m name)))
        (.pathNotExist "stat" name) ∧
    scopeLstatM scope name =
      specStatOutcome (mountResults scope name (fun m => m.fs.lstat (translateM m name)))
        (.pathNotExist "stat" name) ∧
    scopeOpenM scope name =
      specOpenOutcome (mountResults scope name (fun m => m.fs.openF (translateM m name)))
        (.pathNotExist "open" name) := by
  refine ⟨?_, ?_, ?_⟩
  · rw [scopeStatM, statLoop_eq]
    simp only [specStatOutcome, mountResults]
    generalize specFirstOk (List.map (fun m => m.fs.stat (translateM m name))
      (resolveM scope name)) = fo
    cases fo <;> rfl
  · rw [scopeLstatM, statLoop_eq]
    simp only [specStatOutcome, mountResults]
    generalize specFirstOk (List.map (fun m => m.fs.lstat (translateM m name))
      (resolveM scope name)) = fo
    cases fo <;> rfl
  · rw [scopeOpenM, openLoop_eq, openErrAcc_none_spec]
    unfold specOpenOutcome mountResults
    cases specFirstOk ((resolveM scope name).map (fun m => m.fs.openF (translateM m name))) with
    | some v => rfl
    | none =>
      cases hf : (specErrs ((resolveM scope name).map
          (fun m => m.fs.openF (translateM m name)))).find? (fun x => !isNotExistErr x) with
      | some e => simp [hf]
      | none =>
        simp only [hf]
        cases (specErrs ((resolveM scope name).map
            (fun m => m.fs.openF (translateM m name)))).getLast? <;> rfl

/-! ### Helper lemmas for the Readdir merge -/

theorem addEntries_filter (p : Rec → Bool) :
    ∀ (ds : List Rec) (seen : List String) (acc : List Rec),
      addEntries p ds seen acc = addEntries (fun _ => true) (ds.filter p) seen acc := by
  intro ds
  induction ds with
  | nil => intro seen acc; rfl
  | cons d ds ih =>
    intro seen acc
    by_cases hp : p d = true
    · by_cases hc : seen.contains d.name
      · simp [addEntries, hp, hc, List.filter_cons, ih]
      · simp [addEntries, hp, hc, List.filter_cons, ih]
    · simp [addEntries, Bool.eq_false_iff.mpr hp, List.filter_cons, ih]

theorem addEntries_append (q : Rec → Bool) :
    ∀ (l1 l2 : List Rec) (seen : List String) (acc : List Rec),
      addEntries q (l1 ++ l2) seen acc =
        addEntries q l2 (addEntries q l1 seen acc).1 (addEntries q l1 seen acc).2 := by
  intro l1
  induction l1 with
  | nil => intro l2 seen acc; rfl
  | cons d ds ih =>
    intro l2 seen acc
    by_cases h : (q d && !(seen.contains d.name)) = true
    · simp only [List.cons_append, addEntries, h, if_pos, List.append_eq]
      exact ih l2 _ _
    · simp only [List.cons_append, addEntries, h, if_neg, List.append_eq]
      exact ih l2 seen acc

theorem addEntries_true_snd :
    ∀ (l : List Rec) (seen : List String) (acc : List Rec),
      (addEntries (fun _ => true) l seen acc).2 = acc ++ dedupRecs l seen := by
  intro l
  induction l with
  | nil => intro seen acc; simp [addEntries, dedupRecs]
  | cons d ds ih =>
    intro seen acc
    by_cases hc : d.name ∈ seen
    · simp [addEntries, hc, dedupRecs, ih]
    · simp [addEntries, hc, dedupRecs, ih]

theorem injectMounts_id (name : String) :
    ∀ (sc : List (String × List Mount)) (seen : List String) (all : List Rec),
      (∀ kv ∈ sc, ¬(hasPathPfx kv.1 name = true ∧ kv.1 ≠ name)) →
      injectMounts name sc seen all = (seen, all) := by
  intro sc
  induction sc with
  | nil => intro seen all _; rfl
  | cons kv rest ih =>
    intro seen all h
    obtain ⟨old, ms⟩ := kv
    have hh := h (old, ms) (List.mem_cons_self _ _)
    have hcond : (hasPathPfx old name && decide (old ≠ name)) = false := by
      cases hp : hasPathPfx old name with
      | false => simp
      | true =>
        have : old = name := by
          by_contra hne
          exact hh ⟨hp, hne⟩
        simp [this]
    simp only [injectMounts, hcond, Bool.false_eq_true, if_neg]
    exact ih seen all (fun kv hkv => h kv (List.mem_cons_of_mem _ hkv))

/-- Claim C6 (amended).  When two binds resolve at the mount point and
neither listing contains an entry matching the preference predicate
(`.go` suffix), and no other scope key lies strictly below the queried
directory, `Readdir` returns the union of the directory-only entries of
both listings *plus all entries of the first listing* (the fallback base
listing), deduplicated by name and sorted by name. -/
theorem readdir_merge_union_amended (scope : Scope) (name : String)
    (m1 m2 : Mount) (ds1 ds2 : List Rec)
    (hr : resolveM scope (scopeCleanPath name) = [m1, m2])
    (h1 : m1.fs.readdir (translateM m1 (scopeCleanPath name)) = .ok ds1)
    (h2 : m2.fs.readdir (translateM m2 (scopeCleanPath name)) = .ok ds2)
    (hg1 : ds1.any (fun d => strEndsWith d.name ".go") = false)
    (hg2 : ds2.any (fun d => strEndsWith d.name ".go") = false)
    (hkeys : ∀ kv ∈ scope,
      ¬(hasPathPfx kv.1 (scopeCleanPath name) = true ∧ kv.1 ≠ scopeCleanPath name)) :
    scopeReaddirM scope name = .ok (specMergeUnion ds1 ds2) := by
  unfold scopeReaddirM
  dsimp only
  rw [hr]
  simp only [List.foldl_cons, List.foldl_nil, bindStep, h1, h2, hg1, hg2,
    Bool.not_false, Bool.true_and, Bool.or_false, Bool.and_false, Bool.false_or,
    Bool.false_eq_true, if_false, Option.getD_some]
  rw [injectMounts_id (scopeCleanPath name) scope _ _ hkeys]
  rw [addEntries_filter (fun d => d.isDir) ds1, addEntries_filter (fun d => d.isDir) ds2]
  rw [← addEntries_append (fun _ => true) (ds1.filter fun d => d.isDir)
    (ds2.filter fun d => d.isDir)]
  rw [← addEntries_append (fun _ => true)
    ((ds1.filter fun d => d.isDir) ++ (ds2.filter fun d => d.isDir)) ds1]
  rw [addEntries_true_snd]
  simp only [List.nil_append, specMergeUnion, List.append_assoc]
  cases hD : dedupRecs ((ds1.filter fun d => d.isDir) ++
      ((ds2.filter fun d => d.isDir) ++ ds1)) [] with
  | nil => simp [sortByName, sortBy]
  | cons x xs => simp

/-- Claim C6 (counterexample).  Two binds at `/`: the first lists only the
plain file `f`, the second only the directory `d`; neither matches the
`.go` preference predicate.  The merged listing is `[d, f]` and contains
the non-directory `f`, so the claimed "union of the directory-only
entries from both binds" (which would be `[d]` alone) is not what
`Readdir` returns. -/
theorem readdir_merge_union_counterexample :
    scopeReaddirM c6Scope "/" = .ok [c6Dir, c6File] ∧ c6File.isDir = false :=
  ⟨rfl, rfl⟩

/-- Witness for the amended C6 at the two-bind scope above. -/
theorem readdir_merge_union_amended_witness :
    scopeReaddirM c6Scope "/" = .ok (specMergeUnion [c6File] [c6Dir]) := by
  refine readdir_merge_union_amended c6Scope "/" ⟨"/", "/", c6FsFiles⟩ ⟨"/", "/", c6FsDirs⟩
    [c6File] [c6Dir] rfl rfl rfl (by decide) (by decide) ?_
  intro kv hkv
  have h2 : c6Scope.map Prod.fst = ["/"] := rfl
  have h1 : kv.1 ∈ c6Scope.map Prod.fst := List.mem_map_of_mem _ hkv
  rw [h2] at h1
  simp only [List.mem_singleton] at h1
  rintro ⟨_, hne⟩
  exact hne (by rw [h1]; rfl)

/-! ### Helper lemmas on the byte-wise string order -/

theorem strLeChars_total : ∀ a b, strLeChars a b = true ∨ strLeChars b a = true := by
  intro a
  induction a with
  | nil => intro b; left; rfl
  | cons x as ih =>
    intro b
    cases b with
    | nil => right; rfl
    | cons y bs =>
      rcases lt_trichotomy x y with h | rfl | h
      · left; simp [strLeChars, h]
      · rcases ih bs with h2 | h2
        · left; simp [strLeChars, lt_irrefl, h2]
        · right; simp [strLeChars, lt_irrefl, h2]
      · right; simp [strLeChars, h]

theorem strLeChars_trans :
    ∀ a b c, strLeChars a b = true → strLeChars b c = true → strLeChars a c = true := by
  intro a
  induction a with
  | nil => intros; rfl
  | cons x as ih =>
    intro b c hab hbc
    cases b with
    | nil => simp [strLeChars] at hab
    | cons y bs =>
      cases c with
      | nil => simp [strLeChars] at hbc
      | cons z cs =>
        simp only [strLeChars] at hab hbc ⊢
        rcases lt_trichotomy x y with h1 | rfl | h1
        · rcases lt_trichotomy y z with h2 | rfl | h2
          · simp [h1.trans h2]
          · simp [h1]
          · simp [lt_asymm h2, h2] at hbc
        · simp only [lt_irrefl, if_false, reduceIte] at hab
          rcases lt_trichotomy x z with h2 | rfl | h2
          · simp [h2]
          · simp only [lt_irrefl, if_false, reduceIte] at hbc ⊢
            exact ih bs cs hab hbc
          · simp [lt_asymm h2, h2] at hbc
        · simp [lt_asymm h1, h1] at hab

theorem strLe_total (a b : String) : strLe a b = true ∨ strLe b a = true :=
  strLeChars_total a.data b.data

theorem strLe_trans {a b c : String} (h1 : strLe a b = true) (h2 : strLe b c = true) :
    strLe a c = true :=
  strLeChars_trans a.data b.data c.data h1 h2

/-! ### Helper lemmas on the insertion sort -/

theorem insertSorted_perm {α : Type} (le : α → α → Bool) (a : α) :
    ∀ l : List α, (insertSorted le a l).Perm (a :: l) := by
  intro l
  induction l with
  | nil => exact List.Perm.refl _
  | cons b l ih =>
    by_cases h : le a b = true
    · simp [insertSorted, h]
    · simp only [insertSorted, h, if_neg, if_false]
      exact (ih.cons b).trans (List.Perm.swap a b l)

theorem sortBy_perm {α : Type} (le : α → α → Bool) :
    ∀ l : List α, (sortBy le l).Perm l := by
  intro l
  induction l with
  | nil => exact List.Perm.refl _
  | cons a l ih => exact (insertSorted_perm le a (sortBy le l)).trans (ih.cons a)

theorem insertSorted_pairwise {α : Type} (le : α → α → Bool)
    (htot : ∀ a b, le a b = true ∨ le b a = true)
    (htrans : ∀ a b c, le a b = true → le b c = true → le a c = true) (a : α) :
    ∀ l : List α, l.Pairwise (fun x y => le x y = true) →
      (insertSorted le a l).Pairwise (fun x y => le x y = true) := by
  intro l
  induction l with
  | nil => intro _; exact List.pairwise_singleton _ _
  | cons b l ih =>
    intro hp
    rcases List.pairwise_cons.mp hp with ⟨hb, hl⟩
    by_cases h : le a b = true
    · simp only [insertSorted, h, if_pos]
      refine List.pairwise_cons.mpr ⟨?_, hp⟩
      intro x hx
      rcases List.mem_cons.mp hx with rfl | hx
      · exact h
      · exact htrans a b x h (hb x hx)
    · have hba : le b a = true := (htot a b).resolve_left h
      simp only [insertSorted, h, if_neg, if_false]
      refine List.pairwise_cons.mpr ⟨?_, ih hl⟩
      intro x hx
      rcases List.mem_cons.mp ((insertSorted_perm le a l).mem_iff.mp hx) with rfl | hx2
      · exact hba
      · exact hb x hx2

theorem sortBy_pairwise {α : Type} (le : α → α → Bool)
    (htot : ∀ a b, le a b = true ∨ le b a = true)
    (htrans : ∀ a b c, le a b = true → le b c = true → le a c = true) :
    ∀ l : List α, (sortBy le l).Pairwise (fun x y => le x y = true) := by
  intro l
  induction l with
  | nil => exact List.Pairwise.nil
  | cons a l ih => exact insertSorted_pairwise le htot htrans a _ ih

/-! ### Name-uniqueness invariants of the Readdir merge -/

theorem addEntries_inv (p : Rec → Bool) :
    ∀ (ds : List Rec) (seen : List String) (all : List Rec),
      (∀ r ∈ all, r.name ∈ seen) → (all.map Rec.name).Nodup →
      (∀ r ∈ (addEntries p ds seen all).2, r.name ∈ (addEntries p ds seen all).1) ∧
      ((addEntries p ds seen all).2.map Rec.name).Nodup := by
  intro ds
  induction ds with
  | nil => intro seen all h1 h2; exact ⟨h1, h2⟩
  | cons d ds ih =>
    intro seen all h1 h2
    by_cases hcond : (p d && !(seen.contains d.name)) = true
    · have hnotin : d.name ∉ seen := by
        rw [Bool.and_eq_true] at hcond
        simpa using hcond.2
      simp only [addEntries, hcond, if_pos]
      apply ih
      · intro r hr
        rcases List.mem_append.mp hr with hr | hr
        · exact List.mem_cons_of_mem _ (h1 r hr)
        · rw [List.mem_singleton.mp hr]; exact List.mem_cons_self _ _
      · rw [List.map_append]
        rw [List.nodup_append]
        refine ⟨h2, List.nodup_singleton _, ?_⟩
        intro x hx
        simp only [List.map_cons, List.map_nil, List.mem_singleton]
        rcases List.mem_map.mp hx with ⟨r, hr, rfl⟩
        intro hx2
        exact hnotin (hx2 ▸ h1 r hr)
    · simp only [addEntries, hcond, if_neg, if_false]
      exact ih seen all h1 h2

theorem injectMounts_inv (name : String) :
    ∀ (sc : List (String × List Mount)) (seen : List String) (all : List Rec),
      (∀ r ∈ all, r.name ∈ seen) → (all.map Rec.name).Nodup →
      (∀ r ∈ (injectMounts name sc seen all).2, r.name ∈ (injectMounts name sc seen all).1) ∧
      ((injectMounts name sc seen all).2.map Rec.name).Nodup := by
  intro sc
  induction sc with
  | nil => intro seen all h1 h2; exact ⟨h1, h2⟩
  | cons kv rest ih =>
    intro seen all h1 h2
    obtain ⟨old, ms⟩ := kv
    simp only [injectMounts]
    by_cases hcond : (hasPathPfx old name && decide (old ≠ name)) = true
    · simp only [hcond, if_pos]
      set elem0 := strDrop old (strLen name) with he0
      set elem1 := (if strStartsWith elem0 "/" = true then strDrop elem0 1 else elem0) with he1
      set elem := String.mk (elem1.data.takeWhile (· ≠ '/')) with he
      by_cases hc : seen.contains elem = true
      · simp only [hc, if_pos]
        exact ih seen all h1 h2
      · simp only [hc, if_neg, if_false]
        apply ih
        · intro r hr
          rcases List.mem_append.mp hr with hr | hr
          · exact List.mem_cons_of_mem _ (h1 r hr)
          · rw [List.mem_singleton.mp hr]; exact List.mem_cons_self _ _
        · rw [List.map_append, List.nodup_append]
          refine ⟨h2, List.nodup_singleton _, ?_⟩
          intro x hx
          simp only [List.map_cons, List.map_nil, List.mem_singleton]
          rcases List.mem_map.mp hx with ⟨r, hr, rfl⟩
          intro hx2
          have hnotin : elem ∉ seen := by simpa using hc
          have h3 : r.name = elem := hx2
          exact hnotin (h3 ▸ h1 r hr)
    · simp only [hcond, if_neg, if_false]
      exact ih seen all h1 h2

theorem bindSteps_inv (name : String) :
    ∀ (ms : List Mount) (st : RdState),
      (∀ r ∈ st.all, r.name ∈ st.seen) → (st.all.map Rec.name).Nodup →
      (∀ r ∈ (ms.foldl (bindStep name) st).all, r.name ∈ (ms.foldl (bindStep name) st).seen) ∧
      ((ms.foldl (bindStep name) st).all.map Rec.name).Nodup := by
  intro ms
  induction ms with
  | nil => intro st h1 h2; exact ⟨h1, h2⟩
  | cons m ms ih =>
    intro st h1 h2
    rw [List.foldl_cons]
    cases hrd : m.fs.readdir (translateM m name) with
    | error e =>
      apply ih
      · simp only [bindStep, hrd]
        exact h1
      · simp only [bindStep, hrd]
        exact h2
    | ok dir =>
      have ha := addEntries_inv
        (fun d => d.isDir || (!st.haveGo && dir.any (fun d => strEndsWith d.name ".go")))
        dir st.seen st.all h1 h2
      apply ih
      · simp only [bindStep, hrd]
        exact ha.1
      · simp only [bindStep, hrd]
        exact ha.2

/-! ### Consecutive distinctness of the archive Readdir scan -/

theorem zipScan_chain (dirname : String) :
    ∀ (l : List ZipHeader) (prev : String),
      (zipScan dirname prev l).Chain' (fun a b => a.name ≠ b.name) ∧
      (∀ x, (zipScan dirname prev l).head? = some x → x.name ≠ prev) := by
  intro l
  induction l with
  | nil =>
    intro prev
    exact ⟨List.chain'_nil, by intro x hx; simp [zipScan] at hx⟩
  | cons e rest ih =>
    intro prev
    by_cases hpfx : strStartsWith e.name dirname = true
    · simp only [zipScan, hpfx, Bool.not_true, Bool.false_eq_true, if_false, if_neg]
      set nm0 := strDrop e.name (strLen dirname) with h0
      set nm := (if nm0.data.any (· = '/') = true
        then String.mk (nm0.data.takeWhile (· ≠ '/')) else nm0) with h1
      by_cases heq : nm = prev
      · simp only [heq, if_pos]
        exact ih prev
      · simp only [heq, if_neg, if_false]
        constructor
        · rw [List.chain'_cons']
          refine ⟨?_, (ih nm).1⟩
          intro y hy
          exact fun hcontra => (ih nm).2 y hy hcontra.symm
        · intro x hx
          simp only [List.head?_cons, Option.some.injEq] at hx
          rw [← hx]
          exact heq
    · simp only [zipScan]
      rw [if_pos (by simp [hpfx])]
      exact ⟨List.chain'_nil, by intro x hx; simp at hx⟩

/-- Claim C7 (counterexample).  zipfs `Readdir` on the table
`[d/a, d/a.b, d/a/x]` (sorted by full name) lists `/d` as
`[a, a.b, a]`: the inferred directory `a` (from `d/a/x`) repeats the
earlier file name non-adjacently, and `a.b` precedes `a` although
`"a.b" ≤ "a"` fails — so the records are neither name-sorted nor free of
duplicate names. -/
theorem readdir_sorted_counterexample :
    (zipReaddirM c7Table "/d").map (List.map ZRec.name) = .ok ["a", "a.b", "a"] ∧
    ¬ (["a", "a.b", "a"] : List String).Nodup ∧
    strLe "a.b" "a" = false :=
  ⟨rfl, by decide, rfl⟩

/-- Claim C7 (amended).  `Scope.Readdir` does return records in strictly
ascending name order with no two records sharing a name; the archive
adapters return records in entry-table scan order with no two
*consecutive* records sharing a name (the listing is fully sorted and
duplicate-free only when truncating local names preserves the table
order). -/
theorem readdir_order_amended :
    (∀ (scope : Scope) (name : String) (l : List Rec),
       scopeReaddirM scope name = .ok l →
       l.Pairwise (fun a b => strLe a.name b.name = true ∧ a.name ≠ b.name)) ∧
    (∀ (table : List ZipHeader) (abspath : String) (l : List ZRec),
       zipReaddirM table abspath = .ok l →
       l.Chain' (fun a b => a.name ≠ b.name)) := by
  constructor
  · intro scope name l h
    unfold scopeReaddirM at h
    dsimp only at h
    have hinv0 := bindSteps_inv (scopeCleanPath name) (resolveM scope (scopeCleanPath name))
      ⟨false, [], [], none, none⟩ (by intro r hr; simp at hr) (by simp)
    set st := List.foldl (bindStep (scopeCleanPath name))
      ⟨false, [], [], none, none⟩ (resolveM scope (scopeCleanPath name)) with hst
    set sa1 := (if st.haveGo = true then (st.seen, st.all)
        else addEntries (fun _ => true) (st.first.getD []) st.seen st.all) with hsa1
    have hinv1 : (∀ r ∈ sa1.2, r.name ∈ sa1.1) ∧ (sa1.2.map Rec.name).Nodup := by
      rw [hsa1]
      by_cases hgo : st.haveGo = true
      · simp only [hgo, if_pos]
        exact hinv0
      · simp only [hgo, if_neg, if_false]
        exact addEntries_inv (fun _ => true) (st.first.getD []) st.seen st.all
          hinv0.1 hinv0.2
    have hinv2 := injectMounts_inv (scopeCleanPath name) scope sa1.1 sa1.2 hinv1.1 hinv1.2
    by_cases hE : (injectMounts (scopeCleanPath name) scope sa1.1 sa1.2).2.isEmpty = true
    · rw [if_pos hE] at h
      cases herr : st.err with
      | some e => rw [herr] at h; exact absurd h (by simp)
      | none =>
        rw [herr] at h
        simp only [Except.ok.injEq] at h
        rw [← h]
        exact List.Pairwise.nil
    · rw [if_neg hE] at h
      simp only [Except.ok.injEq] at h
      rw [← h]
      have hsorted := sortBy_pairwise (fun a b : Rec => strLe a.name b.name)
        (fun a b => strLe_total a.name b.name)
        (fun a b c hab hbc => strLe_trans hab hbc)
        (injectMounts (scopeCleanPath name) scope sa1.1 sa1.2).2
      have hperm := sortBy_perm (fun a b : Rec => strLe a.name b.name)
        (injectMounts (scopeCleanPath name) scope sa1.1 sa1.2).2
      have hnodup := ((hperm.map Rec.name).nodup_iff).mpr hinv2.2
      exact hsorted.and (List.pairwise_map.mp hnodup)
  · intro table abspath l h
    unfold zipReaddirM at h
    cases hst : zipStatIdx table abspath with
    | error e => rw [hst] at h; exact absurd h (by simp)
    | ok p =>
      obtain ⟨i, fi⟩ := p
      rw [hst] at h
      dsimp only at h
      split at h
      · exact absurd h (by simp)
      · split at h
        · simp only [Except.ok.injEq] at h
          rw [← h]
          exact (zipScan_chain "" (table.drop i) "").1
        · cases hzp : zipPathM abspath with
          | error e => rw [hzp] at h; exact absurd h (by simp)
          | ok zp =>
            rw [hzp] at h
            simp only [Except.ok.injEq] at h
            rw [← h]
            exact (zipScan_chain (zp ++ "/") (table.drop i) "").1

/-- Witness for the amended C7: the two-bind scope listing `[d, f]` is
strictly ascending, and the zip listing of `[a, b/c, x]` at the root has
pairwise-distinct consecutive names. -/
theorem readdir_order_amended_witness :
    List.Pairwise (fun a b : Rec => strLe a.name b.name = true ∧ a.name ≠ b.name)
      [c6Dir, c6File] ∧
    List.Chain' (fun a b : ZRec => a.name ≠ b.name)
      [⟨"a", some ⟨"a", 0⟩⟩, ⟨"b", none⟩, ⟨"x", some ⟨"x", 0⟩⟩] :=
  ⟨readdir_order_amended.1 c6Scope "/" [c6Dir, c6File] rfl,
   readdir_order_amended.2 c1ZipTable "/"
     [⟨"a", some ⟨"a", 0⟩⟩, ⟨"b", none⟩, ⟨"x", some ⟨"x", 0⟩⟩] rfl⟩

/-! ### Helper lemmas for autofs -/

theorem mapFind_insert {β : Type} (k k' : String) (v : β) :
    ∀ l : List (String × β),
      mapFind k (mapInsert k' v l) = if k' = k then some v else mapFind k l := by
  intro l
  induction l with
  | nil => simp [mapInsert, mapFind]
  | cons kv t ih =>
    obtain ⟨k0, v0⟩ := kv
    simp only [mapInsert]
    by_cases h0 : k0 = k'
    · simp only [if_pos h0, mapFind]
      by_cases hk : k' = k
      · simp [hk]
      · have h2 : ¬(k0 = k) := fun hc => hk (h0.symm.trans hc)
        simp [hk, h2]
    · simp only [if_neg h0, mapFind, ih]
      by_cases h1 : k0 = k
      · have hk : ¬(k' = k) := fun hc => h0 (h1.trans hc.symm)
        simp [h1, hk]
      · simp [h1]

theorem autofsProbe_spec (ad : String → String → Except GoErr SFS) (scope : Scope)
    (nm : String) :
    ∀ (infos : List Rec) (ov : List (String × SFS)),
      (∀ r ∈ infos, mapFind (pathJoin nm (goBase r.name)) ov = none) →
      (infos.map (fun r => pathJoin nm (goBase r.name))).Nodup →
      (∀ r ∈ infos, hasFSExt (strToLower (goExt (pathJoin nm (goBase r.name)))) = true →
        openFileSystemM ad scope (pathJoin nm (goBase r.name)) = .error .notSupported ∨
        ∃ f, openFileSystemM ad scope (pathJoin nm (goBase r.name)) = .ok f) →
      ∃ l ov2, autofsProbe ad scope nm infos ov = .ok (l, ov2) ∧
        l.length = infos.length ∧
        ∀ (k : Nat) (b : Rec), infos.get? k = some b →
          hasFSExt (strToLower (goExt (pathJoin nm (goBase b.name)))) = true →
          openFileSystemM ad scope (pathJoin nm (goBase b.name)) = .error .notSupported →
          l.get? k = some b := by
  intro infos
  induction infos with
  | nil =>
    intro ov _ _ _
    exact ⟨[], ov, rfl, rfl, by intro k b hk; simp at hk⟩
  | cons info rest ih =>
    intro ov hpre hnod hok
    have hfull : mapFind (pathJoin nm (goBase info.name)) ov = none :=
      hpre info (List.mem_cons_self _ _)
    have hnod' := hnod
    rw [List.map_cons, List.nodup_cons] at hnod'
    by_cases hx : hasFSExt (strToLower (goExt (pathJoin nm (goBase info.name)))) = true
    · rcases hok info (List.mem_cons_self _ _) hx with hns | ⟨f, hf⟩
      · obtain ⟨l, ov2, hpr, hlen, hget⟩ := ih ov
          (fun r hr => hpre r (List.mem_cons_of_mem _ hr)) hnod'.2
          (fun r hr => hok r (List.mem_cons_of_mem _ hr))
        refine ⟨info :: l, ov2, ?_, by simp [hlen], ?_⟩
        · simp only [autofsProbe, hfull, Option.isSome_none, Bool.false_eq_true, if_false,
            hx, if_pos, hns, hpr]
        · intro k b hk hbx hbe
          cases k with
          | zero =>
            simp only [List.get?_cons_zero, Option.some.injEq] at hk
            simp [List.get?_cons_zero, hk]
          | succ k =>
            simp only [List.get?_cons_succ] at hk ⊢
            exact hget k b hk hbx hbe
      · obtain ⟨l, ov2, hpr, hlen, hget⟩ := ih (mapInsert (pathJoin nm (goBase info.name)) f ov)
          (fun r hr => by
            rw [mapFind_insert]
            have hne : pathJoin nm (goBase info.name) ≠ pathJoin nm (goBase r.name) := by
              intro hcontra
              exact hnod'.1 (hcontra ▸ List.mem_map_of_mem _ hr)
            simp only [hne, if_neg, if_false]
            exact hpre r (List.mem_cons_of_mem _ hr))
          hnod'.2
          (fun r hr => hok r (List.mem_cons_of_mem _ hr))
        refine ⟨autofsDirRec info.name info.size info.modTime :: l, ov2, ?_, by simp [hlen], ?_⟩
        · simp only [autofsProbe, hfull, Option.isSome_none, Bool.false_eq_true, if_false,
            hx, if_pos, hf, hpr]
        · intro k b hk hbx hbe
          cases k with
          | zero =>
            simp only [List.get?_cons_zero, Option.some.injEq] at hk
            rw [← hk] at hbe
            rw [hf] at hbe
            exact absurd hbe (by simp)
          | succ k =>
            simp only [List.get?_cons_succ] at hk ⊢
            exact hget k b hk hbx hbe
    · obtain ⟨l, ov2, hpr, hlen, hget⟩ := ih ov
        (fun r hr => hpre r (List.mem_cons_of_mem _ hr)) hnod'.2
        (fun r hr => hok r (List.mem_cons_of_mem _ hr))
      refine ⟨info :: l, ov2, ?_, by simp [hlen], ?_⟩
      · simp only [autofsProbe, hfull, Option.isSome_none, Bool.false_eq_true, if_false,
          hx, if_neg, hpr]
      · intro k b hk hbx hbe
        cases k with
        | zero =>
          simp only [List.get?_cons_zero, Option.some.injEq] at hk
          simp [List.get?_cons_zero, hk]
        | succ k =>
          simp only [List.get?_cons_succ] at hk ⊢
          exact hget k b hk hbx hbe

/-- Claim C8.  During an autofs directory listing (of a path not under a
mounted overlay), when an entry with a recognized archive extension fails
to open with the distinguished unsupported-format error
(`vfs.ErrNotSupported`), that entry stays in the listing unchanged — in
particular it keeps `IsDir() = false` if it was a plain file — and the
listing as a whole still succeeds, provided every other probed entry
either mounts successfully or also fails with the distinguished error. -/
theorem autofs_unsupported_tolerance (ad : String → String → Except GoErr SFS)
    (scope : Scope) (ov : List (String × SFS)) (name : String) (infos : List Rec)
    (k : Nat) (b : Rec)
    (hw : overlayWalkFrom ov (goCleanPath ("/" ++ name)) = none)
    (hs : scopeReaddirM scope (goCleanPath ("/" ++ name)) = .ok infos)
    (hpre : ∀ r ∈ infos,
      mapFind (pathJoin (goCleanPath ("/" ++ name)) (goBase r.name)) ov = none)
    (hnod : (infos.map (fun r => pathJoin (goCleanPath ("/" ++ name)) (goBase r.name))).Nodup)
    (hok : ∀ r ∈ infos,
      hasFSExt (strToLower (goExt (pathJoin (goCleanPath ("/" ++ name)) (goBase r.name)))) = true →
      openFileSystemM ad scope (pathJoin (goCleanPath ("/" ++ name)) (goBase r.name)) =
        .error .notSupported ∨
      ∃ f, openFileSystemM ad scope (pathJoin (goCleanPath ("/" ++ name)) (goBase r.name)) = .ok f)
    (hk : infos.get? k = some b)
    (hbx : hasFSExt (strToLower (goExt (pathJoin (goCleanPath ("/" ++ name)) (goBase b.name)))) =
      true)
    (hbe : openFileSystemM ad scope (pathJoin (goCleanPath ("/" ++ name)) (goBase b.name)) =
      .error .notSupported) :
    ∃ l ov2, autofsReaddirM ad scope ov name = .ok (l, ov2) ∧
      l.length = infos.length ∧ l.get? k = some b ∧
      (l.get? k).map Rec.isDir = some b.isDir := by
  obtain ⟨l, ov2, hpr, hlen, hget⟩ :=
    autofsProbe_spec ad scope (goCleanPath ("/" ++ name)) infos ov hpre hnod hok
  have hgot := hget k b hk hbx hbe
  refine ⟨l, ov2, ?_, hlen, hgot, by rw [hgot]; rfl⟩
  simp only [autofsReaddirM, hw, hs]
  exact hpr

/-- Witness for C8: a directory containing only the invalid archive
`broken.zip`, with an adapter that rejects it as unsupported. -/
theorem autofs_unsupported_tolerance_witness :
    ∃ l ov2, autofsReaddirM c8Ad c8Scope [] "/" = .ok (l, ov2) ∧
      l.length = 1 ∧ l.get? 0 = some c8Broken ∧
      (l.get? 0).map Rec.isDir = some c8Broken.isDir :=
  autofs_unsupported_tolerance c8Ad c8Scope [] "/" [c8Broken] 0 c8Broken rfl rfl
    (fun _ _ => rfl) (by simp)
    (fun r hr _ => by
      have hb : r = c8Broken := by simpa using hr
      subst hb
      exact Or.inl rfl)
    rfl rfl rfl

/-- Claim C9.  For a path not covered by any mounted overlay, autofs
`Stat` and `Lstat` rewrite any successful scope stat whose name carries a
recognized archive extension (matched case-insensitively) to a
synthesized directory record: directory mode bit set, permissions 0555,
`IsDir` true, with the underlying name, size and modTime preserved — no
validity check of the archive and no mounting is involved. -/
theorem autofs_stat_archive_ext (scope : Scope) (ov : List (String × SFS))
    (name : String) (info : Rec)
    (hm : mapFind (goCleanPath ("/" ++ name)) ov = none)
    (hw : overlayWalkFrom ov (goCleanPath ("/" ++ name)) = none)
    (hs : scopeStatM scope (goCleanPath ("/" ++ name)) = .ok info)
    (he : hasFSExt (strToLower (goExt info.name)) = true) :
    autofsStatM scope ov name = .ok ⟨info.name, info.size, info.modTime, true, 0o555, true⟩ ∧
    autofsLstatM scope ov name = .ok ⟨info.name, info.size, info.modTime, true, 0o555, true⟩ := by
  constructor
  · simp only [autofsStatM, hm, hw, Option.isSome_none, Bool.false_eq_true, if_false,
      autofsStatCore, hs, he, if_pos, autofsDirRec]
  · simp only [autofsLstatM, hm, hw, Option.isSome_none, Bool.false_eq_true, if_false,
      autofsStatCore, hs, he, if_pos, autofsDirRec]

/-- Witness for C9 at the upper-case `ARCHIVE.ZIP` (exercising the
case-insensitive extension match on an invalid, unmounted archive). -/
theorem autofs_stat_archive_ext_witness :
    autofsStatM c9Scope [] "/ARCHIVE.ZIP" = .ok ⟨"ARCHIVE.ZIP", 10, 5, true, 0o555, true⟩ ∧
    autofsLstatM c9Scope [] "/ARCHIVE.ZIP" = .ok ⟨"ARCHIVE.ZIP", 10, 5, true, 0o555, true⟩ :=
  autofs_stat_archive_ext c9Scope [] "/ARCHIVE.ZIP" c9Info rfl rfl rfl rfl
